import Mathlib

/-!
Shallow embedding of the cachem repository (wire codec, command layer,
server loop, client ping, connection pools) together with proofs about
the claims of its specification.

Conventions of the embedding:
* A byte stream is a `List Nat` whose entries are the byte values; reading
  from a buffered stream is a function `List Nat → Option (value × List Nat)`
  (`none` models an `Err` escaping through `?`).
* Machine integers are `Nat`/`Int`; wrap-around of casts such as `as u32`
  is taken explicitly with `% 2 ^ 32`.
* `f32`/`f64` values are carried as their IEEE-754 bit patterns (a `Nat`
  below `2 ^ 32` resp. `2 ^ 64`); the codec moves the patterns verbatim.
-/

namespace Cachem

/-- Big-endian byte string of width `w` for `n` (low `8 * w` bits of `n`),
as written by tokio `write_u8 / write_u16 / ... / write_u128` and by
`write_all(&x.to_be_bytes())`. -/
def beBytes : Nat → Nat → List Nat
  | 0, _ => []
  | w + 1, n => beBytes w (n / 256) ++ [n % 256]

/-- Big-endian value of a byte string. -/
def beVal (bs : List Nat) : Nat :=
  bs.foldl (fun acc b => acc * 256 + b) 0

/-- Read exactly `w` bytes and assemble them big-endian, as done by tokio
`read_u8 / read_u16 / ... / read_u128` and `read_exact` + `from_be_bytes`;
fails when fewer than `w` bytes remain. -/
def readU (w : Nat) (l : List Nat) : Option (Nat × List Nat) :=
  if w ≤ l.length then some (beVal (l.take w), l.drop w) else none

/-- Two's-complement big-endian bytes of width `w` for the integer `i`,
as written by `write_i8 / ... / write_i128`. -/
def writeI (w : Nat) (i : Int) : List Nat :=
  beBytes w (i % (2 ^ (8 * w))).toNat

/-- Read `w` bytes and interpret them as a two's-complement integer, as done
by `read_i8 / ... / read_i128`. -/
def readI (w : Nat) (l : List Nat) : Option (Int × List Nat) :=
  (readU w l).map fun p =>
    (if p.1 < 2 ^ (8 * w - 1) then (p.1 : Int) else (p.1 : Int) - 2 ^ (8 * w), p.2)

/-- `read_until(0, ..)`: consume bytes up to and including the first `0`
byte; at end of input everything read so far is returned without a
delimiter.  The first component is the consumed block (delimiter
included when found), the second is the rest of the stream. -/
def readUntilZero : List Nat → List Nat × List Nat
  | [] => ([], [])
  | b :: r =>
    if b = 0 then ([0], r)
    else
      let p := readUntilZero r
      (b :: p.1, p.2)

/-- Precise UTF-8 validity of a byte string, the check performed by
`String::from_utf8` (overlong forms, surrogates and out-of-range code
points are invalid). -/
def validUtf8 : List Nat → Bool
  | [] => true
  | b :: r =>
    if b < 0x80 then validUtf8 r
    else if 0xC2 ≤ b ∧ b ≤ 0xDF then
      match r with
      | c1 :: r1 => decide (0x80 ≤ c1 ∧ c1 ≤ 0xBF) && validUtf8 r1
      | [] => false
    else if 0xE0 ≤ b ∧ b ≤ 0xEF then
      match r with
      | c1 :: c2 :: r2 =>
        let lo1 := if b = 0xE0 then 0xA0 else 0x80
        let hi1 := if b = 0xED then 0x9F else 0xBF
        decide (lo1 ≤ c1 ∧ c1 ≤ hi1) && decide (0x80 ≤ c2 ∧ c2 ≤ 0xBF) && validUtf8 r2
      | _ => false
    else if 0xF0 ≤ b ∧ b ≤ 0xF4 then
      match r with
      | c1 :: c2 :: c3 :: r3 =>
        let lo1 := if b = 0xF0 then 0x90 else 0x80
        let hi1 := if b = 0xF4 then 0x8F else 0xBF
        decide (lo1 ≤ c1 ∧ c1 ≤ hi1) && decide (0x80 ≤ c2 ∧ c2 ≤ 0xBF)
          && decide (0x80 ≤ c3 ∧ c3 ≤ 0xBF) && validUtf8 r3
      | _ => false
    else false

/-- The closed universe of types for which `src/cachem/src/wrapper.rs`
implements the `Parse` trait. -/
inductive Ty
  | u8 | u16 | u32 | u64 | u128
  | i8 | i16 | i32 | i64 | i128
  | f32 | f64
  | bool
  | unit
  | emptyMsg
  | str
  | vec (t : Ty)
  | map (k v : Ty)
  | opt (t : Ty)
  | res (t e : Ty)
deriving DecidableEq

/-- Lean carrier of each codec type.  Strings are their UTF-8 byte strings,
floats their bit patterns, and a `HashMap` is an association list (one
entry per key; list order stands for the map's iteration order). -/
@[reducible]
def interp : Ty → Type
  | .u8 | .u16 | .u32 | .u64 | .u128 => Nat
  | .i8 | .i16 | .i32 | .i64 | .i128 => Int
  | .f32 | .f64 => Nat
  | .bool => Bool
  | .unit => Unit
  | .emptyMsg => Unit
  | .str => List Nat
  | .vec t => List (interp t)
  | .map k v => List (interp k × interp v)
  | .opt t => Option (interp t)
  | .res t e => Sum (interp t) (interp e)

/-- Decidable equality on every carrier. -/
def tyDecEq : (t : Ty) → DecidableEq (interp t)
  | .u8 | .u16 | .u32 | .u64 | .u128 => inferInstanceAs (DecidableEq Nat)
  | .i8 | .i16 | .i32 | .i64 | .i128 => inferInstanceAs (DecidableEq Int)
  | .f32 | .f64 => inferInstanceAs (DecidableEq Nat)
  | .bool => inferInstanceAs (DecidableEq Bool)
  | .unit => inferInstanceAs (DecidableEq Unit)
  | .emptyMsg => inferInstanceAs (DecidableEq Unit)
  | .str => inferInstanceAs (DecidableEq (List Nat))
  | .vec t => letI := tyDecEq t; inferInstanceAs (DecidableEq (List (interp t)))
  | .map k v =>
      letI := tyDecEq k; letI := tyDecEq v
      inferInstanceAs (DecidableEq (List (interp k × interp v)))
  | .opt t => letI := tyDecEq t; inferInstanceAs (DecidableEq (Option (interp t)))
  | .res t e =>
      letI := tyDecEq t; letI := tyDecEq e
      inferInstanceAs (DecidableEq (Sum (interp t) (interp e)))

instance (t : Ty) : DecidableEq (interp t) := tyDecEq t

/-- `HashMap::insert` on the association-list model: an existing key keeps
its place and gets the new value, a fresh key is appended. -/
def insertPair {κ ν : Type} (dec : DecidableEq κ) :
    List (κ × ν) → κ → ν → List (κ × ν)
  | [], k, v => [(k, v)]
  | p :: rest, k, v =>
    if dec p.1 k |>.decide then (p.1, v) :: rest else p :: insertPair dec rest k v

/-- `true` when no key occurs twice (the representation invariant of a
`HashMap` rendered as an association list). -/
def nodupKeys {κ ν : Type} (dec : DecidableEq κ) : List (κ × ν) → Bool
  | [] => true
  | p :: rest => rest.all (fun q => !(dec q.1 p.1 |>.decide)) && nodupKeys dec rest

/-- Run an element reader `n` times in sequence, collecting the values in
order — the `for _ in 0..entry_count` loop of `Vec::<T>::read`. -/
def readN {α : Type} (d : List Nat → Option (α × List Nat)) :
    Nat → List Nat → Option (List α × List Nat)
  | 0, l => some ([], l)
  | n + 1, l =>
    (d l).bind fun p => (readN d n p.2).map fun q => (p.1 :: q.1, q.2)

/-- Number of successful element reads the `Vec::<T>::read` loop performs
before it finishes or an element read fails. -/
def readNCount {α : Type} (d : List Nat → Option (α × List Nat)) :
    Nat → List Nat → Nat
  | 0, _ => 0
  | n + 1, l =>
    match d l with
    | some p => readNCount d n p.2 + 1
    | none => 0

/-- The `HashMap::<K, V>::read` loop: read `n` key/value pairs and
`insert` each into the accumulated map (an existing key's value is
overwritten). -/
def readPairsInto {κ ν : Type} (dec : DecidableEq κ)
    (dk : List Nat → Option (κ × List Nat)) (dv : List Nat → Option (ν × List Nat)) :
    Nat → List Nat → List (κ × ν) → Option (List (κ × ν) × List Nat)
  | 0, l, acc => some (acc, l)
  | n + 1, l, acc =>
    (dk l).bind fun p =>
      (dv p.2).bind fun q =>
        readPairsInto dec dk dv n q.2 (insertPair dec acc p.1 q.1)

/-- Representation invariant of a Rust value of each codec type: machine
integers stay in range, strings are valid UTF-8 bytes without an embedded
`0`, and every `Vec`/`HashMap` length fits the container (`usize`; the
interesting bound `< 2 ^ 32` is imposed only where the round-trip needs
it). -/
def wfB : (t : Ty) → interp t → Bool
  | .u8, n => decide (n < 2 ^ 8)
  | .u16, n => decide (n < 2 ^ 16)
  | .u32, n => decide (n < 2 ^ 32)
  | .u64, n => decide (n < 2 ^ 64)
  | .u128, n => decide (n < 2 ^ 128)
  | .i8, i => decide (-(2 ^ 7) ≤ i ∧ i < 2 ^ 7)
  | .i16, i => decide (-(2 ^ 15) ≤ i ∧ i < 2 ^ 15)
  | .i32, i => decide (-(2 ^ 31) ≤ i ∧ i < 2 ^ 31)
  | .i64, i => decide (-(2 ^ 63) ≤ i ∧ i < 2 ^ 63)
  | .i128, i => decide (-(2 ^ 127) ≤ i ∧ i < 2 ^ 127)
  | .f32, n => decide (n < 2 ^ 32)
  | .f64, n => decide (n < 2 ^ 64)
  | .bool, _ => true
  | .unit, _ => true
  | .emptyMsg, _ => true
  | .str, s => s.all (fun b => decide (b < 256) && decide (b ≠ 0)) && validUtf8 s
  | .vec t, l => decide (l.length < 2 ^ 32) && l.all (wfB t)
  | .map k v, l =>
      decide (l.length < 2 ^ 32) && nodupKeys (tyDecEq k) l
        && l.all (fun p => wfB k p.1 && wfB v p.2)
  | .opt t, o =>
      match o with
      | some x => wfB t x
      | none => true
  | .res t e, s =>
      match s with
      | .inl x => wfB t x
      | .inr y => wfB e y

/-- `Parse::write` of `src/cachem/src/wrapper.rs`, collapsed to the byte
string it appends to the sink.  `Vec`/`HashMap` write their length with
`write_u32(len as u32)`; the cast is the low 32 bits, which `beBytes 4`
takes implicitly. -/
def encode : (t : Ty) → interp t → List Nat
  | .u8, n => beBytes 1 n
  | .u16, n => beBytes 2 n
  | .u32, n => beBytes 4 n
  | .u64, n => beBytes 8 n
  | .u128, n => beBytes 16 n
  | .i8, i => writeI 1 i
  | .i16, i => writeI 2 i
  | .i32, i => writeI 4 i
  | .i64, i => writeI 8 i
  | .i128, i => writeI 16 i
  | .f32, n => beBytes 4 n
  | .f64, n => beBytes 8 n
  | .bool, b => [if b then 1 else 0]
  | .unit, _ => []
  | .emptyMsg, _ => [0]
  | .str, s => s ++ [0]
  | .vec t, l => beBytes 4 l.length ++ (l.map (encode t)).flatten
  | .map k v, l =>
      beBytes 4 l.length ++ (l.map fun p => encode k p.1 ++ encode v p.2).flatten
  | .opt t, o =>
      match o with
      | some x => 1 :: encode t x
      | none => [0]
  | .res t e, s =>
      match s with
      | .inl x => 1 :: encode t x
      | .inr y => 0 :: encode e y

/-- `Parse::read` of `src/cachem/src/wrapper.rs` as a function from the
byte stream to the decoded value plus the unread rest (`none` is a
`CachemError`).  `bool::read` (`read_u8` then `== 1`) is inlined where
`Option`/`Result` call it, and `u32::read` is inlined as `readU 4` where
`Vec`/`HashMap` read their length. -/
def decode : (t : Ty) → List Nat → Option (interp t × List Nat)
  | .u8, l => readU 1 l
  | .u16, l => readU 2 l
  | .u32, l => readU 4 l
  | .u64, l => readU 8 l
  | .u128, l => readU 16 l
  | .i8, l => readI 1 l
  | .i16, l => readI 2 l
  | .i32, l => readI 4 l
  | .i64, l => readI 8 l
  | .i128, l => readI 16 l
  | .f32, l => readU 4 l
  | .f64, l => readU 8 l
  | .bool, l => (readU 1 l).map fun p => (decide (p.1 = 1), p.2)
  | .unit, l => some ((), l)
  | .emptyMsg, l => (readU 1 l).map fun p => ((), p.2)
  | .str, l =>
      let p := readUntilZero l
      let v := if p.1.length > 0 then p.1.take (p.1.length - 1) else p.1
      if validUtf8 v then some (v, p.2) else none
  | .vec t, l => (readU 4 l).bind fun p => readN (decode t) p.1 p.2
  | .map k v, l =>
      (readU 4 l).bind fun p => readPairsInto (tyDecEq k) (decode k) (decode v) p.1 p.2 []
  | .opt t, l =>
      (readU 1 l).bind fun p =>
        if p.1 = 1 then (decode t p.2).map fun q => (some q.1, q.2)
        else some (none, p.2)
  | .res t e, l =>
      (readU 1 l).bind fun p =>
        if p.1 = 1 then (decode t p.2).map fun q => (Sum.inl q.1, q.2)
        else (decode e p.2).map fun q => (Sum.inr q.1, q.2)

/-! Round-trip lemmas for the primitive readers. -/

theorem beBytes_length (w n : Nat) : (beBytes w n).length = w := by
  induction w generalizing n with
  | zero => rfl
  | succ w ih => simp [beBytes, ih]

theorem beVal_append (bs : List Nat) (b : Nat) :
    beVal (bs ++ [b]) = beVal bs * 256 + b := by
  simp [beVal, List.foldl_append]

theorem beVal_beBytes (w n : Nat) (h : n < 256 ^ w) : beVal (beBytes w n) = n := by
  induction w generalizing n with
  | zero =>
    simp only [pow_zero, Nat.lt_one_iff] at h
    simp [beBytes, beVal, h]
  | succ w ih =>
    have hdiv : n / 256 < 256 ^ w := by
      apply Nat.div_lt_of_lt_mul
      rw [pow_succ] at h
      omega
    rw [beBytes, beVal_append, ih (n / 256) hdiv]
    omega

theorem take_append_len {α : Type} (l1 l2 : List α) (w : Nat) (h : l1.length = w) :
    (l1 ++ l2).take w = l1 := by
  subst h; exact List.take_left _ _

theorem drop_append_len {α : Type} (l1 l2 : List α) (w : Nat) (h : l1.length = w) :
    (l1 ++ l2).drop w = l2 := by
  subst h; exact List.drop_left _ _

theorem readU_append (w n : Nat) (rest : List Nat) (h : n < 256 ^ w) :
    readU w (beBytes w n ++ rest) = some (n, rest) := by
  have hl := beBytes_length w n
  have ht : (beBytes w n ++ rest).take w = beBytes w n := take_append_len _ _ _ hl
  have hd : (beBytes w n ++ rest).drop w = rest := drop_append_len _ _ _ hl
  unfold readU
  rw [if_pos (by simp [hl])]
  rw [ht, hd, beVal_beBytes w n h]

theorem readU_append_pow2 (w n : Nat) (rest : List Nat) (h : n < 2 ^ (8 * w)) :
    readU w (beBytes w n ++ rest) = some (n, rest) :=
  readU_append w n rest
    (by rw [show (256 : Nat) = 2 ^ 8 by norm_num, ← pow_mul]; exact h)

theorem readI_writeI (w : Nat) (hw : 1 ≤ w) (i : Int)
    (h1 : -(2 ^ (8 * w - 1)) ≤ i) (h2 : i < 2 ^ (8 * w - 1)) (rest : List Nat) :
    readI w (writeI w i ++ rest) = some (i, rest) := by
  have hexp : 8 * w - 1 + 1 = 8 * w := by omega
  have hKH : (2 : Int) ^ (8 * w) = 2 * 2 ^ (8 * w - 1) := by
    conv_lhs => rw [← hexp]
    rw [pow_succ, mul_comm]
  have hHpos : (0 : Int) < 2 ^ (8 * w - 1) := by positivity
  have hKpos : (0 : Int) < 2 ^ (8 * w) := by positivity
  have hmod_nonneg : 0 ≤ i % 2 ^ (8 * w) := Int.emod_nonneg i (by omega)
  have hmod_lt : i % 2 ^ (8 * w) < 2 ^ (8 * w) := Int.emod_lt_of_pos i hKpos
  have hcastK : ((2 ^ (8 * w) : Nat) : Int) = 2 ^ (8 * w) := by push_cast; rfl
  have hcastH : ((2 ^ (8 * w - 1) : Nat) : Int) = 2 ^ (8 * w - 1) := by push_cast; rfl
  have hmodval : i % 2 ^ (8 * w) = i ∨ i % 2 ^ (8 * w) = i + 2 ^ (8 * w) := by
    rcases le_or_lt 0 i with hpos | hneg
    · left
      exact Int.emod_eq_of_lt hpos (by omega)
    · right
      have hsh : (i + 2 ^ (8 * w) * 1) % 2 ^ (8 * w) = i % 2 ^ (8 * w) :=
        Int.add_mul_emod_self_left i (2 ^ (8 * w)) 1
      rw [mul_one] at hsh
      rw [← hsh]
      exact Int.emod_eq_of_lt (by omega) (by omega)
  have hcastn : (((i % 2 ^ (8 * w)).toNat : Int)) = i % 2 ^ (8 * w) :=
    Int.toNat_of_nonneg hmod_nonneg
  have hn : (i % 2 ^ (8 * w)).toNat < 256 ^ w := by
    have h256 : (256 : Nat) ^ w = 2 ^ (8 * w) := by
      rw [show (256 : Nat) = 2 ^ 8 by norm_num, ← pow_mul]
    omega
  unfold writeI readI
  rw [readU_append w _ rest hn]
  simp only [Option.map_some']
  have hieq : (if (i % 2 ^ (8 * w)).toNat < 2 ^ (8 * w - 1) then
      (((i % 2 ^ (8 * w)).toNat : Nat) : Int)
      else (((i % 2 ^ (8 * w)).toNat : Nat) : Int) - 2 ^ (8 * w)) = i := by
    split_ifs with hcond
    · omega
    · omega
  rw [hieq]

theorem readUntilZero_append (s rest : List Nat) (h : ∀ b ∈ s, b ≠ 0) :
    readUntilZero (s ++ 0 :: rest) = (s ++ [0], rest) := by
  induction s with
  | nil => simp [readUntilZero]
  | cons b r ih =>
    have hb : b ≠ 0 := h b (by simp)
    have hr := ih fun x hx => h x (by simp [hx])
    simp [readUntilZero, hb, hr]

theorem decode_str_append (s rest : List Nat) (hwf : wfB .str s = true) :
    decode .str (encode .str s ++ rest) = some (s, rest) := by
  simp only [wfB, Bool.and_eq_true, List.all_eq_true, Bool.and_eq_true,
    decide_eq_true_eq] at hwf
  have hz : ∀ b ∈ s, b ≠ 0 := fun b hb => (hwf.1 b hb).2
  have hv : validUtf8 s = true := hwf.2
  have hαπ : encode .str s ++ rest = s ++ 0 :: rest := by simp [encode]
  rw [hαπ]
  simp only [decode]
  rw [readUntilZero_append s rest hz]
  have hlen : (s ++ [0]).length = s.length + 1 := by simp
  have htake : (s ++ [0]).take ((s ++ [0]).length - 1) = s := by
    rw [hlen]
    exact take_append_len s [0] s.length rfl
  simp only [hlen, Nat.succ_sub_one, gt_iff_lt, Nat.succ_pos, if_pos]
  rw [take_append_len s [0] s.length rfl]
  simp [hv]

theorem readN_encode {α : Type} (d : List Nat → Option (α × List Nat))
    (enc : α → List Nat) (P : α → Bool)
    (hd : ∀ x rest, P x = true → d (enc x ++ rest) = some (x, rest)) :
    ∀ (l : List α) (rest : List Nat), l.all P = true →
      readN d l.length ((l.map enc).flatten ++ rest) = some (l, rest) := by
  intro l
  induction l with
  | nil => intro rest _; simp [readN]
  | cons x xs ih =>
    intro rest hall
    simp only [List.all_cons, Bool.and_eq_true] at hall
    simp only [List.map_cons, List.flatten_cons, List.length_cons, readN, List.append_assoc]
    rw [hd x _ hall.1]
    simp only [Option.some_bind]
    rw [ih _ hall.2]
    rfl

theorem readPairsInto_encode {κ ν : Type} (dec : DecidableEq κ)
    (dk : List Nat → Option (κ × List Nat)) (dv : List Nat → Option (ν × List Nat))
    (enck : κ → List Nat) (encv : ν → List Nat) (Pk : κ → Bool) (Pv : ν → Bool)
    (hk : ∀ x rest, Pk x = true → dk (enck x ++ rest) = some (x, rest))
    (hv : ∀ x rest, Pv x = true → dv (encv x ++ rest) = some (x, rest)) :
    ∀ (l acc : List (κ × ν)) (rest : List Nat),
      (l.all fun p => Pk p.1 && Pv p.2) = true →
      readPairsInto dec dk dv l.length ((l.map fun p => enck p.1 ++ encv p.2).flatten ++ rest) acc
        = some (l.foldl (fun m p => insertPair dec m p.1 p.2) acc, rest) := by
  intro l
  induction l with
  | nil => intro acc rest _; simp [readPairsInto]
  | cons p ps ih =>
    intro acc rest hall
    simp only [List.all_cons, Bool.and_eq_true] at hall
    simp only [List.map_cons, List.flatten_cons, List.length_cons, readPairsInto,
      List.append_assoc]
    rw [hk p.1 _ hall.1.1]
    simp only [Option.some_bind]
    rw [hv p.2 _ hall.1.2]
    simp only [Option.some_bind]
    rw [ih _ _ hall.2]
    rfl

theorem insertPair_append {κ ν : Type} (dec : DecidableEq κ)
    (m : List (κ × ν)) (k : κ) (v : ν) (h : ∀ q ∈ m, q.1 ≠ k) :
    insertPair dec m k v = m ++ [(k, v)] := by
  induction m with
  | nil => rfl
  | cons p rest ih =>
    have hp : p.1 ≠ k := h p (by simp)
    simp only [insertPair]
    rw [if_neg (by simpa using hp)]
    rw [ih fun q hq => h q (by simp [hq])]
    rfl

theorem nodupKeys_key_head {κ ν : Type} (dec : DecidableEq κ)
    (acc : List (κ × ν)) (p : κ × ν) (l : List (κ × ν))
    (h : nodupKeys dec (acc ++ p :: l) = true) : ∀ q ∈ acc, q.1 ≠ p.1 := by
  induction acc with
  | nil => intro q hq; cases hq
  | cons a rest ih =>
    simp only [List.cons_append, nodupKeys, Bool.and_eq_true, List.all_eq_true] at h
    intro q hq
    rcases List.mem_cons.mp hq with rfl | hmem
    · have hne := h.1 p (by simp)
      simp only [Bool.not_eq_true', decide_eq_false_iff_not] at hne
      exact Ne.symm hne
    · exact ih h.2 q hmem

theorem foldl_insertPair_nodup {κ ν : Type} (dec : DecidableEq κ) :
    ∀ (l acc : List (κ × ν)), nodupKeys dec (acc ++ l) = true →
      l.foldl (fun m p => insertPair dec m p.1 p.2) acc = acc ++ l := by
  intro l
  induction l with
  | nil => intro acc _; simp
  | cons p ps ih =>
    intro acc h
    have hfresh : ∀ q ∈ acc, q.1 ≠ p.1 := nodupKeys_key_head dec acc p ps h
    simp only [List.foldl_cons]
    rw [insertPair_append dec acc p.1 p.2 hfresh]
    have hperm : (acc ++ [(p.1, p.2)]) ++ ps = acc ++ p :: ps := by simp
    rw [show (p.1, p.2) = p from rfl] at hperm ⊢
    rw [ih (acc ++ [p]) (by rw [hperm]; exact h), hperm]

/-- Round trip with an arbitrary suffix: decoding the encoding of a
well-formed value consumes exactly the encoding and returns the value. -/
theorem decode_encode_append : ∀ (t : Ty) (x : interp t) (rest : List Nat),
    wfB t x = true → decode t (encode t x ++ rest) = some (x, rest)
  | .u8, n, rest, h => by
    simp only [wfB, decide_eq_true_eq] at h
    simpa [encode, decode] using readU_append_pow2 1 n rest h
  | .u16, n, rest, h => by
    simp only [wfB, decide_eq_true_eq] at h
    simpa [encode, decode] using readU_append_pow2 2 n rest h
  | .u32, n, rest, h => by
    simp only [wfB, decide_eq_true_eq] at h
    simpa [encode, decode] using readU_append_pow2 4 n rest h
  | .u64, n, rest, h => by
    simp only [wfB, decide_eq_true_eq] at h
    simpa [encode, decode] using readU_append_pow2 8 n rest h
  | .u128, n, rest, h => by
    simp only [wfB, decide_eq_true_eq] at h
    simpa [encode, decode] using readU_append_pow2 16 n rest h
  | .i8, i, rest, h => by
    simp only [wfB, decide_eq_true_eq] at h
    simpa [encode, decode] using readI_writeI 1 (by omega) i h.1 h.2 rest
  | .i16, i, rest, h => by
    simp only [wfB, decide_eq_true_eq] at h
    simpa [encode, decode] using readI_writeI 2 (by omega) i h.1 h.2 rest
  | .i32, i, rest, h => by
    simp only [wfB, decide_eq_true_eq] at h
    simpa [encode, decode] using readI_writeI 4 (by omega) i h.1 h.2 rest
  | .i64, i, rest, h => by
    simp only [wfB, decide_eq_true_eq] at h
    simpa [encode, decode] using readI_writeI 8 (by omega) i h.1 h.2 rest
  | .i128, i, rest, h => by
    simp only [wfB, decide_eq_true_eq] at h
    simpa [encode, decode] using readI_writeI 16 (by omega) i h.1 h.2 rest
  | .f32, n, rest, h => by
    simp only [wfB, decide_eq_true_eq] at h
    simpa [encode, decode] using readU_append_pow2 4 n rest h
  | .f64, n, rest, h => by
    simp only [wfB, decide_eq_true_eq] at h
    simpa [encode, decode] using readU_append_pow2 8 n rest h
  | .bool, b, rest, _ => by
    cases b with
    | false =>
      rw [show encode .bool false ++ rest = beBytes 1 0 ++ rest from rfl]
      simp only [decode]
      rw [readU_append 1 0 rest (by norm_num)]
      rfl
    | true =>
      rw [show encode .bool true ++ rest = beBytes 1 1 ++ rest from rfl]
      simp only [decode]
      rw [readU_append 1 1 rest (by norm_num)]
      rfl
  | .unit, x, rest, _ => by simp [encode, decode]
  | .emptyMsg, x, rest, _ => by
    simp only [encode, decode, List.singleton_append]
    rw [show (0 : Nat) :: rest = beBytes 1 0 ++ rest from rfl]
    rw [readU_append 1 0 rest (by norm_num)]
    rfl
  | .str, s, rest, h => decode_str_append s rest h
  | .vec t, l, rest, h => by
    simp only [wfB, Bool.and_eq_true, decide_eq_true_eq] at h
    simp only [encode, decode, List.append_assoc]
    rw [readU_append_pow2 4 l.length _ h.1]
    simp only [Option.some_bind]
    exact readN_encode (decode t) (encode t) (wfB t)
      (fun x r hx => decode_encode_append t x r hx) l rest h.2
  | .map k v, l, rest, h => by
    simp only [wfB, Bool.and_eq_true, decide_eq_true_eq] at h
    simp only [encode, decode, List.append_assoc]
    rw [readU_append_pow2 4 l.length _ h.1.1]
    simp only [Option.some_bind]
    rw [readPairsInto_encode (tyDecEq k) (decode k) (decode v) (encode k) (encode v)
      (wfB k) (wfB v)
      (fun x r hx => decode_encode_append k x r hx)
      (fun x r hx => decode_encode_append v x r hx) l [] rest h.2]
    rw [foldl_insertPair_nodup (tyDecEq k) l [] (by simpa using h.1.2)]
    rfl
  | .opt t, o, rest, h => by
    cases o with
    | none =>
      simp only [encode, decode]
      rw [show ([0] : List Nat) ++ rest = beBytes 1 0 ++ rest from rfl]
      rw [readU_append 1 0 rest (by norm_num)]
      simp
    | some x =>
      have hx : wfB t x = true := h
      simp only [encode, decode]
      rw [show (1 : Nat) :: encode t x ++ rest = beBytes 1 1 ++ (encode t x ++ rest) by simp [beBytes]]
      rw [readU_append 1 1 _ (by norm_num)]
      simp only [Option.some_bind, if_pos rfl]
      rw [decode_encode_append t x rest hx]
      rfl
  | .res t e, s, rest, h => by
    cases s with
    | inl x =>
      have hx : wfB t x = true := h
      simp only [encode, decode]
      rw [show (1 : Nat) :: encode t x ++ rest = beBytes 1 1 ++ (encode t x ++ rest) by simp [beBytes]]
      rw [readU_append 1 1 _ (by norm_num)]
      simp only [Option.some_bind, if_pos rfl]
      rw [decode_encode_append t x rest hx]
      rfl
    | inr y =>
      have hy : wfB e y = true := h
      simp only [encode, decode]
      rw [show (0 : Nat) :: encode e y ++ rest = beBytes 1 0 ++ (encode e y ++ rest) by simp [beBytes]]
      rw [readU_append 1 0 _ (by norm_num)]
      simp only [Option.some_bind]
      rw [if_neg (by norm_num)]
      rw [decode_encode_append e y rest hy]
      rfl

theorem flatten_replicate_nil {α : Type} (n : Nat) :
    (List.replicate n ([] : List α)).flatten = [] := by
  induction n with
  | zero => rfl
  | succ n ih => simp [List.replicate_succ, ih]

/-- C1 (amended).  Codec round trip: for every codec type and every
well-formed value of it — machine integers in range, strings valid UTF-8
without an embedded `0x00` byte, every `Vec`/`HashMap` with fewer than
`2 ^ 32` elements and duplicate-free map keys — decoding the byte string
produced by encoding the value yields exactly the value, consuming the
whole string. -/
theorem decode_encode_of_wf (t : Ty) (x : interp t) (h : wfB t x = true) :
    decode t (encode t x) = some (x, []) := by
  have := decode_encode_append t x [] h
  simpa using this

theorem decode_encode_of_wf_witness :
    wfB (.opt (.vec .str)) (some [[104, 105]]) = true ∧
    decode (.opt (.vec .str)) (encode (.opt (.vec .str)) (some [[104, 105]]))
      = some (some [[104, 105]], []) :=
  ⟨by decide, decode_encode_of_wf (.opt (.vec .str)) (some [[104, 105]]) (by decide)⟩

/-- C1 (counterexample to the claim as stated).  `Vec::write` emits the
length as `self.len() as u32`; for a `Vec<()>` with `2 ^ 32` elements the
length truncates to `0`, so the decoder returns the empty vector and the
round trip fails. -/
theorem decode_encode_fails_at_pow32_vec :
    decode (.vec .unit) (encode (.vec .unit) (List.replicate (2 ^ 32) ()))
      ≠ some (List.replicate (2 ^ 32) (), []) := by
  have henc : encode (.vec .unit) (List.replicate (2 ^ 32) ()) = beBytes 4 (2 ^ 32) := by
    simp only [encode, List.length_replicate, List.map_replicate]
    rw [flatten_replicate_nil]
    simp
  rw [henc, show beBytes 4 (2 ^ 32) = [0, 0, 0, 0] by decide,
    show decode (.vec .unit) [0, 0, 0, 0] = some ([], []) by decide]
  intro hcontra
  have hinj := (Option.some.injEq _ _).mp hcontra
  have hfst : ([] : List Unit) = List.replicate (2 ^ 32) () := congrArg Prod.fst hinj
  have hlen := congrArg List.length hfst
  rw [List.length_replicate] at hlen
  exact absurd hlen.symm (by norm_num)

/-- C2 (counterexample).  An encoded map whose two pairs share the key `5`
decodes successfully — the second value wins — instead of failing with an
error as the claim states. -/
theorem map_decode_duplicate_keys_succeeds :
    decode (.map .u8 .u8) [0, 0, 0, 2, 5, 1, 5, 2] ≠ none ∧
    decode (.map .u8 .u8) [0, 0, 0, 2, 5, 1, 5, 2] = some ([(5, 2)], []) := by
  exact ⟨by decide, by decide⟩

/-- C2 (amended).  `HashMap::read` calls `insert` for every decoded pair,
so duplicate keys are accepted and the pair read last overwrites the value
stored for that key: decoding a pair sequence yields the fold of
`HashMap::insert` over the pairs in read order. -/
theorem map_decode_last_wins (k v : Ty) (l : List (interp k × interp v))
    (rest : List Nat) (hlen : l.length < 2 ^ 32)
    (hall : (l.all fun p => wfB k p.1 && wfB v p.2) = true) :
    decode (.map k v)
        (beBytes 4 l.length ++ ((l.map fun p => encode k p.1 ++ encode v p.2).flatten ++ rest))
      = some (l.foldl (fun m p => insertPair (tyDecEq k) m p.1 p.2) [], rest) := by
  simp only [decode]
  rw [readU_append_pow2 4 l.length _ hlen]
  simp only [Option.some_bind]
  exact readPairsInto_encode (tyDecEq k) (decode k) (decode v) (encode k) (encode v)
    (wfB k) (wfB v)
    (fun x r hx => decode_encode_append k x r hx)
    (fun x r hx => decode_encode_append v x r hx) l [] rest hall

theorem map_decode_last_wins_witness :
    ([(5, 1), (5, 2)] : List (Nat × Nat)).length < 2 ^ 32 ∧
    (([(5, 1), (5, 2)] : List (interp .u8 × interp .u8)).all
      fun p => wfB .u8 p.1 && wfB .u8 p.2) = true ∧
    decode (.map .u8 .u8)
        (beBytes 4 2 ++ (([(5, 1), (5, 2)] : List (interp .u8 × interp .u8)).map
          fun p => encode .u8 p.1 ++ encode .u8 p.2).flatten ++ [])
      = some ([(5, 2)], []) :=
  ⟨by decide, by decide,
    map_decode_last_wins .u8 .u8 [(5, 1), (5, 2)] [] (by decide) (by decide)⟩

/-! C7: oversized length prefixes on sequences. -/

/-- Number of element bodies `Vec::<T>::read` reads from the stream before
it returns: the length prefix is read first, then elements until the
count is reached or an element read fails. -/
def vecReadElems (t : Ty) (l : List Nat) : Nat :=
  match readU 4 l with
  | some p => readNCount (decode t) p.1 p.2
  | none => 0

/-- Capacity `Vec::<T>::read` requests from
`Vec::with_capacity(entry_count as usize)` before any element is read:
the full claimed count, unchecked against the remaining input. -/
def vecReadCapacity (l : List Nat) : Nat :=
  match readU 4 l with
  | some p => p.1
  | none => 0

theorem decode_u8_cons (b : Nat) (r : List Nat) : decode .u8 (b :: r) = some (b, r) := by
  simp [decode, readU, beVal]

theorem readN_u8_oversized (rest : List Nat) :
    ∀ n : Nat, rest.length < n → readN (decode .u8) n rest = none := by
  induction rest with
  | nil =>
    intro n hn
    match n, hn with
    | m + 1, _ =>
      simp [readN, decode, readU]
  | cons b r ih =>
    intro n hn
    match n, hn with
    | m + 1, hm =>
      simp only [readN, decode_u8_cons, Option.some_bind]
      rw [ih m (by simpa using hm)]
      rfl

theorem readNCount_u8_oversized (rest : List Nat) :
    ∀ n : Nat, rest.length < n → readNCount (decode .u8) n rest = rest.length := by
  induction rest with
  | nil =>
    intro n hn
    match n, hn with
    | m + 1, _ => simp [readNCount, decode, readU]
  | cons b r ih =>
    intro n hn
    match n, hn with
    | m + 1, hm =>
      simp only [readNCount, decode_u8_cons]
      rw [ih m (by simpa using hm)]
      simp

/-- C7 (amended).  The `Vec` decoder performs no early length check: when
the `u32` length prefix claims more `u8` elements than bytes remain, it
requests capacity for the full claimed count, then reads every remaining
byte as an element body and fails only when the next element read hits
the end of the input — it does not reject the length before allocating
and before reading element bodies. -/
theorem vec_decode_oversized_fails_late (n : Nat) (rest : List Nat)
    (hn : n < 2 ^ 32) (hlen : rest.length < n) :
    decode (.vec .u8) (beBytes 4 n ++ rest) = none ∧
    vecReadElems .u8 (beBytes 4 n ++ rest) = rest.length ∧
    vecReadCapacity (beBytes 4 n ++ rest) = n := by
  have hread := readU_append_pow2 4 n rest hn
  refine ⟨?_, ?_, ?_⟩
  · simp only [decode]
    rw [hread]
    simp only [Option.some_bind]
    exact readN_u8_oversized rest n hlen
  · unfold vecReadElems
    rw [hread]
    exact readNCount_u8_oversized rest n hlen
  · unfold vecReadCapacity
    rw [hread]

theorem vec_decode_oversized_fails_late_witness :
    2 < 2 ^ 32 ∧ ([7] : List Nat).length < 2 ∧
    (decode (.vec .u8) (beBytes 4 2 ++ [7]) = none ∧
      vecReadElems .u8 (beBytes 4 2 ++ [7]) = 1 ∧
      vecReadCapacity (beBytes 4 2 ++ [7]) = 2) :=
  ⟨by decide, by decide, vec_decode_oversized_fails_late 2 [7] (by decide) (by decide)⟩

/-- C7 (counterexample to the claim as stated).  On input `[0,0,0,2,7]`
the length prefix claims two `u8` elements while only one byte remains;
the decoder nevertheless reads one element body (and requests capacity
for the claimed two) before failing, so it does not reject the oversized
length early. -/
theorem vec_decode_reads_body_before_reject :
    decode (.vec .u8) [0, 0, 0, 2, 7] = none ∧
    vecReadElems .u8 [0, 0, 0, 2, 7] = 1 ∧
    vecReadElems .u8 [0, 0, 0, 2, 7] ≠ 0 ∧
    vecReadCapacity [0, 0, 0, 2, 7] = 2 := by
  exact ⟨by decide, by decide, by decide, by decide⟩


/-! Command layer (src/cachem/src/command.rs) and the per-connection
server loop (src/cachem/src/server.rs). -/

/-- Opcode set of the protocol, from `command.rs`. -/
inductive Command
  | Get | MGet | Keys | Exists | MExists
  | Set | MSet | Del | MDel
  | Save
  | Pong
  | Ping
deriving DecidableEq

/-- `impl From<u8> for Command`: every unassigned byte falls through to
`Pong`. -/
def Command.fromU8 (x : Nat) : Command :=
  if x = 0 then .Get
  else if x = 1 then .MGet
  else if x = 2 then .Keys
  else if x = 3 then .Exists
  else if x = 4 then .MExists
  else if x = 5 then .Set
  else if x = 6 then .MSet
  else if x = 7 then .Del
  else if x = 8 then .MDel
  else if x = 9 then .Save
  else if x = 254 then .Ping
  else .Pong

/-- `impl From<Command> for u8`. -/
def Command.toU8 : Command → Nat
  | .Get => 0
  | .MGet => 1
  | .Keys => 2
  | .Exists => 3
  | .MExists => 4
  | .Set => 5
  | .MSet => 6
  | .Del => 7
  | .MDel => 8
  | .Save => 9
  | .Ping => 254
  | .Pong => 255

/-- Observable outcome of one iteration of the per-connection loop in
`Server::listen_tcp`. -/
inductive ServerAction
  | closedEof
  | pongReply
  | dispatch (cmd : Command) (ns : Nat)
  | cacheMissingLogged (ns : Nat)
  | taskPanicked
deriving DecidableEq

/-- One iteration of the per-connection loop of `Server::listen_tcp`
(server.rs 70-112) on the bytes available from the socket: read the
command byte (EOF closes the task), answer `Ping` with `Pong`, otherwise
read the namespace byte (`unwrap` panics the task at EOF), look the
namespace up and dispatch `handle(cmd, ..)`; a missing namespace is only
logged and the loop continues. -/
def serverIteration (registered : Nat → Bool) (input : List Nat) : ServerAction :=
  match input with
  | [] => .closedEof
  | b :: rest =>
    if Command.fromU8 b = .Ping then .pongReply
    else
      match rest with
      | [] => .taskPanicked
      | ns :: _ =>
        if registered ns then .dispatch (Command.fromU8 b) ns
        else .cacheMissingLogged ns

/-- C8 (counterexample).  The unassigned leading byte `0x7A` does not
close the connection: with namespace `0` registered, the loop decodes it
as `Pong` and dispatches it to namespace `0`. -/
theorem server_dispatches_unknown_opcode :
    serverIteration (fun n => decide (n = 0)) [122, 0] = .dispatch .Pong 0 ∧
    serverIteration (fun n => decide (n = 0)) [122, 0] ≠ .closedEof ∧
    serverIteration (fun n => decide (n = 0)) [122, 0] ≠ .taskPanicked := by
  exact ⟨by decide, by decide, by decide⟩

/-- C8 (amended).  An unassigned request byte (not 0-9, 254 or 255)
decodes to `Pong` and the server treats it like any other non-`Ping`
command: it reads the namespace byte and dispatches `Pong` to that
namespace when it is registered; the connection is not closed and no
error is raised. -/
theorem server_unknown_opcode_dispatched (b ns : Nat) (rest : List Nat)
    (registered : Nat → Bool) (hb : b < 256) (hlo : 10 ≤ b)
    (hping : b ≠ 254) (hpong : b ≠ 255) (hreg : registered ns = true) :
    Command.fromU8 b = .Pong ∧
    serverIteration registered (b :: ns :: rest) = .dispatch .Pong ns := by
  have hfrom : Command.fromU8 b = .Pong := by
    have h0 : b ≠ 0 := by omega
    have h1 : b ≠ 1 := by omega
    have h2 : b ≠ 2 := by omega
    have h3 : b ≠ 3 := by omega
    have h4 : b ≠ 4 := by omega
    have h5 : b ≠ 5 := by omega
    have h6 : b ≠ 6 := by omega
    have h7 : b ≠ 7 := by omega
    have h8 : b ≠ 8 := by omega
    have h9 : b ≠ 9 := by omega
    unfold Command.fromU8
    rw [if_neg h0, if_neg h1, if_neg h2, if_neg h3, if_neg h4, if_neg h5,
      if_neg h6, if_neg h7, if_neg h8, if_neg h9, if_neg hping]
  refine ⟨hfrom, ?_⟩
  have hstep : serverIteration registered (b :: ns :: rest)
      = if Command.fromU8 b = .Ping then .pongReply
        else if registered ns then .dispatch (Command.fromU8 b) ns
        else .cacheMissingLogged ns := rfl
  rw [hstep, hfrom, if_neg (by decide), if_pos hreg]

theorem server_unknown_opcode_dispatched_witness :
    122 < 256 ∧ 10 ≤ 122 ∧ 122 ≠ 254 ∧ 122 ≠ 255 ∧
    (fun n => decide (n = 0)) 0 = true ∧
    (Command.fromU8 122 = .Pong ∧
      serverIteration (fun n => decide (n = 0)) [122, 0, 9] = .dispatch .Pong 0) :=
  ⟨by decide, by decide, by decide, by decide, by decide,
    server_unknown_opcode_dispatched 122 0 [9] (fun n => decide (n = 0))
      (by decide) (by decide) (by decide) (by decide) (by decide)⟩

/-! Client ping (src/cachem/src/connection.rs 56-66). -/

/-- Byte string `Connection::ping` writes (and flushes) before reading:
exactly the `Ping` command byte. -/
def pingBytesWritten : List Nat := [Command.toU8 .Ping]

/-- Health verdict of `Connection::ping` as a function of the bytes that
arrive in reply: `u8::read(&mut self.0).await.is_ok()` — any
successfully read byte counts, a read failure (end of input) does not. -/
def pingHealthy (input : List Nat) : Bool :=
  (readU 1 input).isSome

/-- C9.  `Connection::ping` writes exactly the single byte `0xFE` (the
`Ping` opcode) and reports the connection healthy precisely when the
one-byte reply read succeeds — whatever the byte value is; an empty
reply stream (read error) is unhealthy. -/
theorem ping_writes_fe_and_any_reply_is_healthy :
    pingBytesWritten = [254] ∧
    (∀ input : List Nat, pingHealthy input = true ↔ input ≠ []) ∧
    (∀ (b : Nat) (rest : List Nat), pingHealthy (b :: rest) = true) := by
  refine ⟨rfl, ?_, ?_⟩
  · intro input
    cases input <;> simp [pingHealthy, readU]
  · intro b rest
    simp [pingHealthy, readU]



/-! Connection pools (src/cachem/src/pool.rs and src/cachem/src/v2/pool.rs).
Connections are opaque and carried as numeric ids (fresh ones opened by
`connect` are modelled as id `0`); the outcomes of the health probe and
of `TcpStream::connect` are inputs of each operation.  Counters are
`Nat`: in every reachable state the code subtracts only from counters at
least as large as the amount subtracted, so machine wrap-around never
occurs. -/

/-- State of the v1 `ConnectionPool` (pool.rs): the `available` and
`pool_size` counters, the `has_dead_con` flag and the FIFO queue of
connections (front = list head). -/
structure PoolV1 where
  available : Nat
  poolSize : Nat
  hasDeadCon : Bool
  connections : List Nat
deriving DecidableEq

/-- Pool errors surfaced by `try_acquire`. -/
inductive AcqResult
  | ok (c : Nat)
  | errNoConnectionAvailable
  | errCannotConnect
deriving DecidableEq

/-- `ConnectionPool::try_acquire` (pool.rs 129-157): fail on the dead
flag; fail when `available == 0`; pop the front and decrement
`available` (also when the pop finds nothing); then health-probe the
popped connection (probe outcome `healthy` is an input): healthy wraps
it in a guard, unhealthy sets the dead flag, drops it and fails with
`CannotConnect`. -/
def tryAcquireV1 (p : PoolV1) (healthy : Bool) : PoolV1 × AcqResult :=
  if p.hasDeadCon then (p, .errNoConnectionAvailable)
  else if p.available = 0 then (p, .errNoConnectionAvailable)
  else
    match p.connections with
    | [] => ({ p with available := p.available - 1 }, .errNoConnectionAvailable)
    | c :: rest =>
      if healthy then
        ({ p with connections := rest, available := p.available - 1 }, .ok c)
      else
        ({ p with connections := rest, available := p.available - 1, hasDeadCon := true },
          .errCannotConnect)

/-- `ConnectionPool::release` (pool.rs 165-168), called by
`Drop for ConnectionGuard` (connection.rs 471-475): push the connection
to the back and increment `available`; there is no failure path and no
health check. -/
def releaseV1 (p : PoolV1) (c : Nat) : PoolV1 :=
  { p with connections := p.connections ++ [c], available := p.available + 1 }

/-- `ConnectionPool::drop_all` (pool.rs 185-192): pop every queued
connection, decrementing `available` once per pop. -/
def dropAllV1 (p : PoolV1) : PoolV1 :=
  { p with available := p.available - p.connections.length, connections := [] }

/-- Number of successful `connect` outcomes among the first `n` attempts
of a reconnect loop, the attempt outcomes being the oracle `ok`. -/
def connectOksCount (ok : Nat → Bool) (n : Nat) : Nat :=
  ((List.range n).filter ok).length

/-- One tick of the v1 reconnect task (pool.rs 202-228): when the dead
flag is set, `drop_all`, then attempt `pool_size` fresh connects,
pushing each success to the back and incrementing `available` once per
success; the dead flag is cleared at the end of every tick. -/
def reconnectTickV1 (p : PoolV1) (ok : Nat → Bool) : PoolV1 :=
  let p1 :=
    if p.hasDeadCon then
      let pd := dropAllV1 p
      { pd with
        connections := pd.connections ++ List.replicate (connectOksCount ok p.poolSize) 0,
        available := pd.available + connectOksCount ok p.poolSize }
    else p
  { p1 with hasDeadCon := false }

/-- State of the v2 `ConnectionPool` (v2/pool.rs): the dead marker is a
counter, not a flag. -/
structure PoolV2 where
  available : Nat
  deadCon : Nat
  poolSize : Nat
  connections : List Nat
deriving DecidableEq

/-- `v2::ConnectionPool::try_acquire` (v2/pool.rs 122-148): fail when
`available == 0`; pop the front; a healthy probe hands the popped
connection out; an unhealthy probe drops it and immediately attempts a
fresh `connect` (outcome `newCon`): success hands the fresh connection
out as a normal acquisition, failure increments the dead counter and
fails with `CannotConnect`.  `available` is decremented on all three
paths. -/
def tryAcquireV2 (p : PoolV2) (healthy : Bool) (newCon : Option Nat) : PoolV2 × AcqResult :=
  if p.available = 0 then (p, .errNoConnectionAvailable)
  else
    match p.connections with
    | [] => (p, .errNoConnectionAvailable)
    | _ :: rest =>
      if healthy then
        ({ p with connections := rest, available := p.available - 1 },
          .ok (p.connections.headD 0))
      else
        match newCon with
        | some c2 =>
          ({ p with connections := rest, available := p.available - 1 }, .ok c2)
        | none =>
          ({ p with
            connections := rest
            available := p.available - 1
            deadCon := p.deadCon + 1 }, .errCannotConnect)

/-- Result of `v2::ConnectionPool::scale_down`. -/
inductive ScaleDownResult
  | ok
  | errNotEnoughConnectionsInPool
  | errNotEnoughConnectionsAvailable
deriving DecidableEq

/-- `v2::ConnectionPool::scale_up` (v2/pool.rs 151-162): open `k`
connections into a local queue first — a failed open aborts the call
before the pool is touched — then extend the queue and add `k` to both
counters. -/
def scaleUpV2 (p : PoolV2) (k : Nat) (allOk : Bool) : PoolV2 :=
  if allOk then
    { p with
      connections := p.connections ++ List.replicate k 0
      poolSize := p.poolSize + k
      available := p.available + k }
  else p

/-- `v2::ConnectionPool::scale_down` (v2/pool.rs 167-179): reject when
`pool_size < count`, then when `available < count`; otherwise subtract
`count` from both counters and pop `count` connections from the front. -/
def scaleDownV2 (p : PoolV2) (k : Nat) : PoolV2 × ScaleDownResult :=
  if p.poolSize < k then (p, .errNotEnoughConnectionsInPool)
  else if p.available < k then (p, .errNotEnoughConnectionsAvailable)
  else
    ({ p with
      poolSize := p.poolSize - k
      available := p.available - k
      connections := p.connections.drop k }, .ok)

/-- `v2::ConnectionPool::release` (v2/pool.rs 182-185), called by the v2
guard drop: push to the back, increment `available`; infallible. -/
def releaseV2 (p : PoolV2) (c : Nat) : PoolV2 :=
  { p with connections := p.connections ++ [c], available := p.available + 1 }

/-- One tick of the v2 reconnect task (v2/pool.rs 205-226): when the
dead counter is positive, attempt that many fresh connects; each success
is pushed to the back, increments `available` and decrements the dead
counter.  Nothing is dropped; the existing queue stays in place. -/
def reconnectTickV2 (p : PoolV2) (ok : Nat → Bool) : PoolV2 :=
  if 0 < p.deadCon then
    { p with
      connections := p.connections ++ List.replicate (connectOksCount ok p.deadCon) 0,
      available := p.available + connectOksCount ok p.deadCon,
      deadCon := p.deadCon - connectOksCount ok p.deadCon }
  else p



/-- C3 (counterexample).  In the v2 pool a failed health probe does not
end in `CannotConnect` when the immediate fresh `connect` succeeds: from
a pool with one queued connection `7`, an unhealthy probe with a
successful reconnect returns the fresh connection `9` as a normal
acquisition (and drops `7`). -/
theorem tryacquire_v2_unhealthy_can_succeed :
    (tryAcquireV2 ⟨1, 0, 1, [7]⟩ false (some 9)).2 = .ok 9 ∧
    (tryAcquireV2 ⟨1, 0, 1, [7]⟩ false (some 9)).2 ≠ .errCannotConnect ∧
    (tryAcquireV2 ⟨1, 0, 1, [7]⟩ false (some 9)).1.connections = [] ∧
    (tryAcquireV2 ⟨1, 0, 1, [7]⟩ false (some 9)).1.deadCon = 0 := by
  exact ⟨by decide, by decide, by decide, by decide⟩

/-- C3 (amended).  Unhealthy-probe paths of `try_acquire`: in pool.rs the
claim holds as stated — the popped connection is dropped, the dead flag
is set and `CannotConnect` is returned.  In v2/pool.rs the popped
connection is dropped but a fresh connection is opened at once: when the
open succeeds that fresh connection is returned as a successful
acquisition; only when it also fails is the dead counter incremented and
`CannotConnect` returned. -/
theorem tryacquire_unhealthy_paths (p1 : PoolV1) (c : Nat) (rest : List Nat)
    (p2 : PoolV2) (c2 : Nat) (rest2 : List Nat) (fresh : Nat)
    (h1q : p1.connections = c :: rest) (h1d : p1.hasDeadCon = false)
    (h1a : p1.available ≠ 0)
    (h2q : p2.connections = c2 :: rest2) (h2a : p2.available ≠ 0) :
    tryAcquireV1 p1 false
      = ({ p1 with connections := rest, available := p1.available - 1, hasDeadCon := true },
        .errCannotConnect) ∧
    tryAcquireV2 p2 false (some fresh)
      = ({ p2 with connections := rest2, available := p2.available - 1 }, .ok fresh) ∧
    tryAcquireV2 p2 false none
      = ({ p2 with
          connections := rest2
          available := p2.available - 1
          deadCon := p2.deadCon + 1 }, .errCannotConnect) := by
  refine ⟨?_, ?_, ?_⟩
  · simp [tryAcquireV1, h1d, h1a, h1q]
  · simp [tryAcquireV2, h2a, h2q]
  · simp [tryAcquireV2, h2a, h2q]

theorem tryacquire_unhealthy_paths_witness :
    (⟨1, 2, false, [7, 8]⟩ : PoolV1).connections = 7 :: [8] ∧
    (⟨1, 2, false, [7, 8]⟩ : PoolV1).hasDeadCon = false ∧
    (⟨1, 2, false, [7, 8]⟩ : PoolV1).available ≠ 0 ∧
    (⟨1, 0, 1, [7]⟩ : PoolV2).connections = 7 :: [] ∧
    (⟨1, 0, 1, [7]⟩ : PoolV2).available ≠ 0 ∧
    (tryAcquireV1 ⟨1, 2, false, [7, 8]⟩ false
        = (⟨0, 2, true, [8]⟩, .errCannotConnect) ∧
      tryAcquireV2 ⟨1, 0, 1, [7]⟩ false (some 9) = (⟨0, 0, 1, []⟩, .ok 9) ∧
      tryAcquireV2 ⟨1, 0, 1, [7]⟩ false none = (⟨0, 1, 1, []⟩, .errCannotConnect)) :=
  ⟨by decide, by decide, by decide, by decide, by decide,
    tryacquire_unhealthy_paths ⟨1, 2, false, [7, 8]⟩ 7 [8] ⟨1, 0, 1, [7]⟩ 7 [] 9
      rfl rfl (by decide) rfl (by decide)⟩

/-- C4 (counterexample).  A v2 reconnect tick at a state with one queued
connection `5`, dead counter `2` and `pool_size = 4` (all connects
succeeding) keeps `5` in the queue and opens only `2` connections — not
`pool_size = 4` — leaving `available = 3`; the claim requires the queue
to be dropped and `pool_size` connections to be opened. -/
theorem reconnect_v2_keeps_queue_and_opens_dead_count :
    (reconnectTickV2 ⟨1, 2, 4, [5]⟩ (fun _ => true)).connections = [5, 0, 0] ∧
    (reconnectTickV2 ⟨1, 2, 4, [5]⟩ (fun _ => true)).available = 3 ∧
    (reconnectTickV2 ⟨1, 2, 4, [5]⟩ (fun _ => true)).available ≠ 4 ∧
    (reconnectTickV2 ⟨1, 2, 4, [5]⟩ (fun _ => true)).deadCon = 0 := by
  exact ⟨by decide, by decide, by decide, by decide⟩

/-- C4 (amended).  Reconnect ticks with the dead marker set: the v1 task
behaves as claimed — it drops every queued connection, zeroes
`available` (the v1 `drop_all` subtracts once per queued connection,
which zeroes the counter because `available` equals the queue length in
every reachable state), then attempts `pool_size` fresh connects,
pushing each success and incrementing `available` once per success.  The
v2 task instead leaves the queue in place and attempts only as many
connects as its dead counter records. -/
theorem reconnect_tick_behaviour (p1 : PoolV1) (ok : Nat → Bool) (p2 : PoolV2)
    (h1d : p1.hasDeadCon = true) (h1al : p1.available = p1.connections.length)
    (h2d : 0 < p2.deadCon) :
    (reconnectTickV1 p1 ok).available = connectOksCount ok p1.poolSize ∧
    (reconnectTickV1 p1 ok).connections
      = List.replicate (connectOksCount ok p1.poolSize) 0 ∧
    (reconnectTickV1 p1 ok).poolSize = p1.poolSize ∧
    (reconnectTickV1 p1 ok).hasDeadCon = false ∧
    (reconnectTickV2 p2 ok).connections
      = p2.connections ++ List.replicate (connectOksCount ok p2.deadCon) 0 ∧
    (reconnectTickV2 p2 ok).available
      = p2.available + connectOksCount ok p2.deadCon ∧
    (reconnectTickV2 p2 ok).poolSize = p2.poolSize := by
  refine ⟨?_, ?_, ?_, ?_, ?_, ?_, ?_⟩ <;>
    simp [reconnectTickV1, reconnectTickV2, dropAllV1, h1d, h1al, h2d]

theorem reconnect_tick_behaviour_witness :
    (⟨2, 3, true, [7, 8]⟩ : PoolV1).hasDeadCon = true ∧
    (⟨2, 3, true, [7, 8]⟩ : PoolV1).available
      = (⟨2, 3, true, [7, 8]⟩ : PoolV1).connections.length ∧
    0 < (⟨1, 2, 4, [5]⟩ : PoolV2).deadCon ∧
    ((reconnectTickV1 ⟨2, 3, true, [7, 8]⟩ (fun _ => true)).available
        = connectOksCount (fun _ => true) 3 ∧
      (reconnectTickV1 ⟨2, 3, true, [7, 8]⟩ (fun _ => true)).connections
        = List.replicate (connectOksCount (fun _ => true) 3) 0 ∧
      (reconnectTickV1 ⟨2, 3, true, [7, 8]⟩ (fun _ => true)).poolSize = 3 ∧
      (reconnectTickV1 ⟨2, 3, true, [7, 8]⟩ (fun _ => true)).hasDeadCon = false ∧
      (reconnectTickV2 ⟨1, 2, 4, [5]⟩ (fun _ => true)).connections
        = [5] ++ List.replicate (connectOksCount (fun _ => true) 2) 0 ∧
      (reconnectTickV2 ⟨1, 2, 4, [5]⟩ (fun _ => true)).available
        = 1 + connectOksCount (fun _ => true) 2 ∧
      (reconnectTickV2 ⟨1, 2, 4, [5]⟩ (fun _ => true)).poolSize = 4) :=
  ⟨by decide, by decide, by decide,
    reconnect_tick_behaviour ⟨2, 3, true, [7, 8]⟩ (fun _ => true) ⟨1, 2, 4, [5]⟩
      rfl (by decide) (by decide)⟩

/-- C6.  `scale_down(k)` fails with `NotEnoughConnectionsInPool` when
`k > pool_size`, otherwise with `NotEnoughConnectionsAvailable` when
`k > available`, and in both error cases leaves counters and queue
untouched; otherwise it subtracts `k` from both counters and removes
exactly the first `k` connections from the front of the queue. -/
theorem scale_down_spec (p : PoolV2) (k : Nat) :
    (p.poolSize < k → scaleDownV2 p k = (p, .errNotEnoughConnectionsInPool)) ∧
    (k ≤ p.poolSize → p.available < k →
      scaleDownV2 p k = (p, .errNotEnoughConnectionsAvailable)) ∧
    (k ≤ p.poolSize → k ≤ p.available →
      (scaleDownV2 p k).2 = .ok ∧
      (scaleDownV2 p k).1.poolSize = p.poolSize - k ∧
      (scaleDownV2 p k).1.available = p.available - k ∧
      (scaleDownV2 p k).1.deadCon = p.deadCon ∧
      (scaleDownV2 p k).1.connections = p.connections.drop k ∧
      (k ≤ p.connections.length →
        p.connections = p.connections.take k ++ (scaleDownV2 p k).1.connections ∧
        (scaleDownV2 p k).1.connections.length = p.connections.length - k)) := by
  refine ⟨?_, ?_, ?_⟩
  · intro h
    simp [scaleDownV2, h]
  · intro h1 h2
    simp [scaleDownV2, h1, h2]
  · intro h1 h2
    have hsd : scaleDownV2 p k
        = ({ p with
            poolSize := p.poolSize - k
            available := p.available - k
            connections := p.connections.drop k }, .ok) := by
      unfold scaleDownV2
      rw [if_neg (by omega), if_neg (by omega)]
    rw [hsd]
    refine ⟨rfl, rfl, rfl, rfl, rfl, ?_⟩
    intro hlen
    exact ⟨(List.take_append_drop k p.connections).symm, by simp⟩

theorem scale_down_spec_witness :
    (2 ≤ (⟨2, 0, 3, [10, 11]⟩ : PoolV2).poolSize) ∧
    (2 ≤ (⟨2, 0, 3, [10, 11]⟩ : PoolV2).available) ∧
    ((scaleDownV2 ⟨2, 0, 3, [10, 11]⟩ 2).2 = .ok ∧
      (scaleDownV2 ⟨2, 0, 3, [10, 11]⟩ 2).1.poolSize = 1 ∧
      (scaleDownV2 ⟨2, 0, 3, [10, 11]⟩ 2).1.available = 0 ∧
      (scaleDownV2 ⟨2, 0, 3, [10, 11]⟩ 2).1.connections = []) ∧
    (scaleDownV2 ⟨1, 0, 3, [10]⟩ 2 = (⟨1, 0, 3, [10]⟩, .errNotEnoughConnectionsAvailable)) ∧
    (scaleDownV2 ⟨0, 0, 1, []⟩ 2 = (⟨0, 0, 1, []⟩, .errNotEnoughConnectionsInPool)) := by
  have h := (scale_down_spec ⟨2, 0, 3, [10, 11]⟩ 2).2.2 (by decide) (by decide)
  have h2 := (scale_down_spec ⟨1, 0, 3, [10]⟩ 2).2.1 (by decide) (by decide)
  have h3 := (scale_down_spec ⟨0, 0, 1, []⟩ 2).1 (by decide)
  exact ⟨by decide, by decide, ⟨h.1, h.2.1, h.2.2.1, h.2.2.2.2.1⟩, h2, h3⟩

/-- C10.  Release is unconditional in both pools: dropping a guard calls
`release`, which always pushes the connection to the back of the queue
and increments `available` by one, touching nothing else; there is no
health probe or error path at release time, so an unhealthy connection
re-enters the queue and is caught only by the PING probe of a later
`try_acquire` (which then sets the v1 dead flag and fails with
`CannotConnect`). -/
theorem release_unconditional (p1 : PoolV1) (p2 : PoolV2) (c : Nat) :
    (releaseV1 p1 c).connections = p1.connections ++ [c] ∧
    (releaseV1 p1 c).available = p1.available + 1 ∧
    (releaseV1 p1 c).poolSize = p1.poolSize ∧
    (releaseV1 p1 c).hasDeadCon = p1.hasDeadCon ∧
    (releaseV2 p2 c).connections = p2.connections ++ [c] ∧
    (releaseV2 p2 c).available = p2.available + 1 ∧
    (releaseV2 p2 c).poolSize = p2.poolSize ∧
    (releaseV2 p2 c).deadCon = p2.deadCon ∧
    (p1.hasDeadCon = false →
      (tryAcquireV1 (releaseV1 p1 c) false).1.hasDeadCon = true ∧
      (tryAcquireV1 (releaseV1 p1 c) false).2 = .errCannotConnect) := by
  refine ⟨rfl, rfl, rfl, rfl, rfl, rfl, rfl, rfl, ?_⟩
  intro hdead
  have hne : (releaseV1 p1 c).connections ≠ [] := by
    simp [releaseV1]
  rcases hq : (releaseV1 p1 c).connections with _ | ⟨c0, rest⟩
  · exact absurd hq hne
  · have hdead2 : (releaseV1 p1 c).hasDeadCon = false := hdead
    have havail : (releaseV1 p1 c).available ≠ 0 := by
      simp [releaseV1]
    constructor <;>
      simp [tryAcquireV1, hdead2, havail, hq]

theorem release_unconditional_witness :
    (⟨1, 2, false, [7]⟩ : PoolV1).hasDeadCon = false ∧
    ((tryAcquireV1 (releaseV1 ⟨1, 2, false, [7]⟩ 9) false).1.hasDeadCon = true ∧
      (tryAcquireV1 (releaseV1 ⟨1, 2, false, [7]⟩ 9) false).2 = .errCannotConnect) :=
  ⟨by decide, (release_unconditional ⟨1, 2, false, [7]⟩ ⟨0, 0, 0, []⟩ 9).2.2.2.2.2.2.2.2 rfl⟩



/-! C5: the `available ≤ pool_size` invariant, checked over whole system
histories.  A system state is the pool state together with the number of
outstanding guards; a label is one atomic pool operation together with
its I/O outcomes (probe result, connect results).  Guard drops release a
held connection (its id is irrelevant to the counters and is modelled as
`0`). -/

/-- System state of the v1 pool: pool plus outstanding guard count. -/
structure SysV1 where
  pool : PoolV1
  guards : Nat

/-- One v1 operation with its environment outcomes. -/
inductive LabelV1
  | tryAcq (healthy : Bool)
  | release
  | tick (ok : Nat → Bool)

/-- A freshly constructed v1 pool (`ConnectionPool::new`): `n`
connections queued, both counters at `n`, dead flag clear, no guards. -/
def initSysV1 (n : Nat) : SysV1 :=
  { pool :=
      { available := n
        poolSize := n
        hasDeadCon := false
        connections := List.replicate n 0 }
    guards := 0 }

/-- Apply one v1 operation: a successful `try_acquire` hands a guard
out, a guard drop releases, a reconnect tick runs `reconnect_task`'s
body once. -/
def stepV1 (s : SysV1) (l : LabelV1) : SysV1 :=
  match l with
  | .tryAcq h =>
    match tryAcquireV1 s.pool h with
    | (p, .ok _) => { pool := p, guards := s.guards + 1 }
    | (p, _) => { pool := p, guards := s.guards }
  | .release =>
    if s.guards = 0 then s
    else { pool := releaseV1 s.pool 0, guards := s.guards - 1 }
  | .tick ok => { s with pool := reconnectTickV1 s.pool ok }

/-- Run a v1 history. -/
def runV1 (s : SysV1) (ls : List LabelV1) : SysV1 :=
  ls.foldl stepV1 s

/-- States reachable from a fresh v1 pool by any operation sequence. -/
inductive ReachV1 : SysV1 → Prop
  | init (n : Nat) : ReachV1 (initSysV1 n)
  | step (s : SysV1) (l : LabelV1) : ReachV1 s → ReachV1 (stepV1 s l)

/-- States reachable from a fresh v1 pool when reconnect ticks happen
only while no guard is outstanding. -/
inductive ReachV1Safe : SysV1 → Prop
  | init (n : Nat) : ReachV1Safe (initSysV1 n)
  | stepAcq (s : SysV1) (h : Bool) : ReachV1Safe s → ReachV1Safe (stepV1 s (.tryAcq h))
  | stepRel (s : SysV1) : ReachV1Safe s → ReachV1Safe (stepV1 s .release)
  | stepTick (s : SysV1) (ok : Nat → Bool) : ReachV1Safe s → s.guards = 0 →
      ReachV1Safe (stepV1 s (.tick ok))

/-- System state of the v2 pool. -/
structure SysV2 where
  pool : PoolV2
  guards : Nat

/-- One v2 operation with its environment outcomes. -/
inductive LabelV2
  | tryAcq (healthy : Bool) (reconnectOk : Bool)
  | release
  | scaleUp (k : Nat) (allOk : Bool)
  | scaleDown (k : Nat)
  | tick (ok : Nat → Bool)

/-- A freshly constructed v2 pool. -/
def initSysV2 (n : Nat) : SysV2 :=
  { pool :=
      { available := n
        deadCon := 0
        poolSize := n
        connections := List.replicate n 0 }
    guards := 0 }

/-- Apply one v2 operation; both `ok` outcomes of `try_acquire` (healthy
probe, or unhealthy probe with successful replacement connect) hand a
guard out. -/
def stepV2 (s : SysV2) (l : LabelV2) : SysV2 :=
  match l with
  | .tryAcq h r =>
    match tryAcquireV2 s.pool h (if r then some 0 else none) with
    | (p, .ok _) => { pool := p, guards := s.guards + 1 }
    | (p, _) => { pool := p, guards := s.guards }
  | .release =>
    if s.guards = 0 then s
    else { pool := releaseV2 s.pool 0, guards := s.guards - 1 }
  | .scaleUp k ok => { s with pool := scaleUpV2 s.pool k ok }
  | .scaleDown k => { s with pool := (scaleDownV2 s.pool k).1 }
  | .tick ok => { s with pool := reconnectTickV2 s.pool ok }

/-- States reachable from a fresh v2 pool by any operation sequence. -/
inductive ReachV2 : SysV2 → Prop
  | init (n : Nat) : ReachV2 (initSysV2 n)
  | step (s : SysV2) (l : LabelV2) : ReachV2 s → ReachV2 (stepV2 s l)

theorem connectOksCount_le (ok : Nat → Bool) (n : Nat) : connectOksCount ok n ≤ n := by
  have h := List.length_filter_le ok (List.range n)
  simpa [connectOksCount] using h

/-- Inductive invariant of the v1 system under guard-free reconnect
ticks: `available` equals the queue length, and `available` plus the
number of outstanding guards is bounded by `pool_size`. -/
def InvV1 (s : SysV1) : Prop :=
  s.pool.available = s.pool.connections.length ∧
  s.pool.available + s.guards ≤ s.pool.poolSize

theorem invV1_init (n : Nat) : InvV1 (initSysV1 n) := by
  constructor <;> simp [initSysV1]

theorem invV1_tryAcq (s : SysV1) (h : Bool) (hInv : InvV1 s) :
    InvV1 (stepV1 s (.tryAcq h)) := by
  obtain ⟨hlen, hsum⟩ := hInv
  by_cases hd : s.pool.hasDeadCon
  · have hstep : stepV1 s (.tryAcq h) = s := by
      simp [stepV1, tryAcquireV1, hd]
    rw [hstep]
    exact ⟨hlen, hsum⟩
  · by_cases ha : s.pool.available = 0
    · have hstep : stepV1 s (.tryAcq h) = s := by
        simp [stepV1, tryAcquireV1, hd, ha]
      rw [hstep]
      exact ⟨hlen, hsum⟩
    · rcases hc : s.pool.connections with _ | ⟨c, rest⟩
      · rw [hc] at hlen
        simp at hlen
        exact absurd hlen ha
      · have hlen2 : s.pool.available = rest.length + 1 := by
          rw [hc] at hlen
          simpa using hlen
        cases h with
        | true =>
          have hstep : stepV1 s (.tryAcq true)
              = { pool := { s.pool with connections := rest, available := s.pool.available - 1 }
                  guards := s.guards + 1 } := by
            simp [stepV1, tryAcquireV1, hd, ha, hc]
          rw [hstep]
          exact ⟨by simp [hlen2], by simp; omega⟩
        | false =>
          have hstep : stepV1 s (.tryAcq false)
              = { pool :=
                    { s.pool with
                      connections := rest
                      available := s.pool.available - 1
                      hasDeadCon := true }
                  guards := s.guards } := by
            simp [stepV1, tryAcquireV1, hd, ha, hc]
          rw [hstep]
          exact ⟨by simp [hlen2], by simp; omega⟩

theorem invV1_release (s : SysV1) (hInv : InvV1 s) : InvV1 (stepV1 s .release) := by
  obtain ⟨hlen, hsum⟩ := hInv
  by_cases hg : s.guards = 0
  · have hstep : stepV1 s .release = s := by simp [stepV1, hg]
    rw [hstep]
    exact ⟨hlen, hsum⟩
  · have hstep : stepV1 s .release
        = { pool := releaseV1 s.pool 0, guards := s.guards - 1 } := by
      simp [stepV1, hg]
    rw [hstep]
    exact ⟨by simp [releaseV1, hlen], by simp [releaseV1]; omega⟩

theorem invV1_tick (s : SysV1) (ok : Nat → Bool) (hInv : InvV1 s) (hg : s.guards = 0) :
    InvV1 (stepV1 s (.tick ok)) := by
  obtain ⟨hlen, hsum⟩ := hInv
  have hcnt := connectOksCount_le ok s.pool.poolSize
  by_cases hd : s.pool.hasDeadCon
  · have hstep : stepV1 s (.tick ok)
        = { pool :=
              { available := s.pool.available - s.pool.connections.length
                  + connectOksCount ok s.pool.poolSize
                poolSize := s.pool.poolSize
                hasDeadCon := false
                connections := List.replicate (connectOksCount ok s.pool.poolSize) 0 }
            guards := s.guards } := by
      simp [stepV1, reconnectTickV1, dropAllV1, hd]
    rw [hstep]
    refine ⟨by simp [hlen], ?_⟩
    simp only [hlen]
    omega
  · have hstep : stepV1 s (.tick ok)
        = { pool := { s.pool with hasDeadCon := false }, guards := s.guards } := by
      simp [stepV1, reconnectTickV1, hd]
    rw [hstep]
    exact ⟨by simp [hlen], by simp; omega⟩

theorem invV1_reach (s : SysV1) (hs : ReachV1Safe s) : InvV1 s := by
  induction hs with
  | init n => exact invV1_init n
  | stepAcq s h _ ih => exact invV1_tryAcq s h ih
  | stepRel s _ ih => exact invV1_release s ih
  | stepTick s ok _ hg ih => exact invV1_tick s ok ih hg

/-- Inductive invariant of the v2 system: `available` equals the queue
length, and `available` plus outstanding guards plus the dead counter is
bounded by `pool_size`. -/
def InvV2 (s : SysV2) : Prop :=
  s.pool.available = s.pool.connections.length ∧
  s.pool.available + s.guards + s.pool.deadCon ≤ s.pool.poolSize

theorem invV2_init (n : Nat) : InvV2 (initSysV2 n) := by
  constructor <;> simp [initSysV2]

theorem invV2_tryAcq (s : SysV2) (h r : Bool) (hInv : InvV2 s) :
    InvV2 (stepV2 s (.tryAcq h r)) := by
  obtain ⟨hlen, hsum⟩ := hInv
  by_cases ha : s.pool.available = 0
  · have hstep : stepV2 s (.tryAcq h r) = s := by
      simp [stepV2, tryAcquireV2, ha]
    rw [hstep]
    exact ⟨hlen, hsum⟩
  · rcases hc : s.pool.connections with _ | ⟨c, rest⟩
    · rw [hc] at hlen
      simp at hlen
      exact absurd hlen ha
    · have hlen2 : s.pool.available = rest.length + 1 := by
        rw [hc] at hlen
        simpa using hlen
      cases h with
      | true =>
        have hstep : stepV2 s (.tryAcq true r)
            = { pool := { s.pool with connections := rest, available := s.pool.available - 1 }
                guards := s.guards + 1 } := by
          simp [stepV2, tryAcquireV2, ha, hc]
        rw [hstep]
        exact ⟨by simp [hlen2], by simp; omega⟩
      | false =>
        cases r with
        | true =>
          have hstep : stepV2 s (.tryAcq false true)
              = { pool := { s.pool with connections := rest, available := s.pool.available - 1 }
                  guards := s.guards + 1 } := by
            simp [stepV2, tryAcquireV2, ha, hc]
          rw [hstep]
          exact ⟨by simp [hlen2], by simp; omega⟩
        | false =>
          have hstep : stepV2 s (.tryAcq false false)
              = { pool :=
                    { s.pool with
                      connections := rest
                      available := s.pool.available - 1
                      deadCon := s.pool.deadCon + 1 }
                  guards := s.guards } := by
            simp [stepV2, tryAcquireV2, ha, hc]
          rw [hstep]
          exact ⟨by simp [hlen2], by simp; omega⟩

theorem invV2_release (s : SysV2) (hInv : InvV2 s) : InvV2 (stepV2 s .release) := by
  obtain ⟨hlen, hsum⟩ := hInv
  by_cases hg : s.guards = 0
  · have hstep : stepV2 s .release = s := by simp [stepV2, hg]
    rw [hstep]
    exact ⟨hlen, hsum⟩
  · have hstep : stepV2 s .release
        = { pool := releaseV2 s.pool 0, guards := s.guards - 1 } := by
      simp [stepV2, hg]
    rw [hstep]
    exact ⟨by simp [releaseV2, hlen], by simp [releaseV2]; omega⟩

theorem invV2_scaleUp (s : SysV2) (k : Nat) (ok : Bool) (hInv : InvV2 s) :
    InvV2 (stepV2 s (.scaleUp k ok)) := by
  obtain ⟨hlen, hsum⟩ := hInv
  cases ok with
  | false =>
    have hstep : stepV2 s (.scaleUp k false) = s := by
      simp [stepV2, scaleUpV2]
    rw [hstep]
    exact ⟨hlen, hsum⟩
  | true =>
    have hstep : stepV2 s (.scaleUp k true)
        = { pool :=
              { s.pool with
                connections := s.pool.connections ++ List.replicate k 0
                poolSize := s.pool.poolSize + k
                available := s.pool.available + k }
            guards := s.guards } := by
      simp [stepV2, scaleUpV2]
    rw [hstep]
    exact ⟨by simp [hlen], by simp; omega⟩

theorem invV2_scaleDown (s : SysV2) (k : Nat) (hInv : InvV2 s) :
    InvV2 (stepV2 s (.scaleDown k)) := by
  obtain ⟨hlen, hsum⟩ := hInv
  by_cases h1 : s.pool.poolSize < k
  · have hstep : stepV2 s (.scaleDown k) = s := by
      simp [stepV2, scaleDownV2, h1]
    rw [hstep]
    exact ⟨hlen, hsum⟩
  · by_cases h2 : s.pool.available < k
    · have hstep : stepV2 s (.scaleDown k) = s := by
        simp [stepV2, scaleDownV2, h1, h2]
      rw [hstep]
      exact ⟨hlen, hsum⟩
    · have hstep : stepV2 s (.scaleDown k)
          = { pool :=
                { s.pool with
                  poolSize := s.pool.poolSize - k
                  available := s.pool.available - k
                  connections := s.pool.connections.drop k }
              guards := s.guards } := by
        simp [stepV2, scaleDownV2, h1, h2]
      rw [hstep]
      exact ⟨by simp [hlen], by simp; omega⟩

theorem invV2_tick (s : SysV2) (ok : Nat → Bool) (hInv : InvV2 s) :
    InvV2 (stepV2 s (.tick ok)) := by
  obtain ⟨hlen, hsum⟩ := hInv
  have hcnt := connectOksCount_le ok s.pool.deadCon
  by_cases hd : 0 < s.pool.deadCon
  · have hstep : stepV2 s (.tick ok)
        = { pool :=
              { s.pool with
                connections := s.pool.connections
                  ++ List.replicate (connectOksCount ok s.pool.deadCon) 0
                available := s.pool.available + connectOksCount ok s.pool.deadCon
                deadCon := s.pool.deadCon - connectOksCount ok s.pool.deadCon }
            guards := s.guards } := by
      simp [stepV2, reconnectTickV2, hd]
    rw [hstep]
    exact ⟨by simp [hlen], by simp; omega⟩
  · have hstep : stepV2 s (.tick ok) = s := by
      simp [stepV2, reconnectTickV2, hd]
    rw [hstep]
    exact ⟨hlen, hsum⟩

theorem invV2_reach (s : SysV2) (hs : ReachV2 s) : InvV2 s := by
  induction hs with
  | init n => exact invV2_init n
  | step s l _ ih =>
    cases l with
    | tryAcq h r => exact invV2_tryAcq s h r ih
    | release => exact invV2_release s ih
    | scaleUp k ok => exact invV2_scaleUp s k ok ih
    | scaleDown k => exact invV2_scaleDown s k ih
    | tick ok => exact invV2_tick s ok ih

/-- C5 (counterexample).  The invariant fails on the v1 pool when a
reconnect tick runs while a guard is outstanding: from a fresh pool of
size 2, acquire one healthy connection, fail the probe on the second
(setting the dead flag), let the reconnect tick restore `pool_size`
fresh connections, then drop the outstanding guard — `available` ends at
3 with `pool_size` 2.  The state is reachable per `ReachV1`. -/
theorem counter_invariant_fails_v1_tick_with_guard :
    ReachV1 (runV1 (initSysV1 2)
      [.tryAcq true, .tryAcq false, .tick (fun _ => true), .release]) ∧
    ¬((runV1 (initSysV1 2)
        [.tryAcq true, .tryAcq false, .tick (fun _ => true), .release]).pool.available
      ≤ (runV1 (initSysV1 2)
        [.tryAcq true, .tryAcq false, .tick (fun _ => true), .release]).pool.poolSize) := by
  constructor
  · show ReachV1 (stepV1 (stepV1 (stepV1 (stepV1 (initSysV1 2)
      (.tryAcq true)) (.tryAcq false)) (.tick (fun _ => true))) .release)
    exact .step _ .release (.step _ (.tick (fun _ => true))
      (.step _ (.tryAcq false) (.step _ (.tryAcq true) (.init 2))))
  · decide

/-- C5 (amended).  The counter invariant `available ≤ pool_size` holds
in every state of the v2 pool reachable by any sequence of try_acquire
steps (any outcome), guard releases, scale_up, scale_down and reconnect
ticks; for the v1 pool it holds in every state reachable when reconnect
ticks run only while no acquired guard is outstanding — a v1 tick with
guards outstanding rebuilds `pool_size` connections and the subsequent
releases push `available` past `pool_size`. -/
theorem counter_invariant_amended :
    (∀ s : SysV1, ReachV1Safe s → s.pool.available ≤ s.pool.poolSize) ∧
    (∀ s : SysV2, ReachV2 s → s.pool.available ≤ s.pool.poolSize) := by
  constructor
  · intro s hs
    have h := invV1_reach s hs
    obtain ⟨h1, h2⟩ := h
    omega
  · intro s hs
    have h := invV2_reach s hs
    obtain ⟨h1, h2⟩ := h
    omega

theorem counter_invariant_amended_witness :
    (stepV1 (initSysV1 2) (.tryAcq true)).pool.available
      ≤ (stepV1 (initSysV1 2) (.tryAcq true)).pool.poolSize ∧
    (stepV2 (initSysV2 2) (.tryAcq false true)).pool.available
      ≤ (stepV2 (initSysV2 2) (.tryAcq false true)).pool.poolSize :=
  ⟨counter_invariant_amended.1 _ (.stepAcq _ true (.init 2)),
    counter_invariant_amended.2 _ (.step _ _ (.init 2))⟩

end Cachem
